import Mathlib

/-!
# QuickScan: a verification development

A shallow embedding of `QuickScan.go` (target expansion, port-range production,
probe classification, result aggregation, the orchestrating loop of `main` and
the worker pool) together with theorems about it.

Go strings are modelled as `List Char`, Go's `int` as `Int` wrapped to 64 bits
where arithmetic can overflow, byte slices as `List Nat` with every element
below 256.  Loops whose termination is not structural carry a fuel argument
counting loop iterations.
-/

namespace QuickScan

/-! ## Library functions used by the program -/

/-- Go's `strings.Split(s, sep)` for a one-character separator: the pieces of
`s` between the occurrences of `sep`; always at least one piece. -/
def Split (sep : Char) : List Char → List (List Char)
  | [] => [[]]
  | c :: cs =>
    if c = sep then [] :: Split sep cs
    else
      match Split sep cs with
      | [] => [[c]]
      | p :: ps => (c :: p) :: ps

/-- Go's `strings.Join(parts, sep)` for a one-character separator. -/
def Join (sep : Char) : List (List Char) → List Char
  | [] => []
  | [p] => p
  | p :: q :: ps => p ++ sep :: Join sep (q :: ps)

/-- Go's `strings.Contains(s, substr)`. -/
def Contains (s substr : List Char) : Bool :=
  match s with
  | [] => substr.isEmpty
  | c :: cs => substr.isPrefixOf (c :: cs) || Contains cs substr

/-- Value of an ASCII decimal digit. -/
def digitVal (c : Char) : Option Nat :=
  if 48 ≤ c.toNat ∧ c.toNat ≤ 57 then some (c.toNat - 48) else none

/-- Decimal value of a run of digits, `none` when a character is not a digit. -/
def parseDigits : List Char → Nat → Option Nat
  | [], acc => some acc
  | c :: cs, acc =>
    match digitVal c with
    | none => none
    | some d => parseDigits cs (acc * 10 + d)

/-- Smallest value of Go's 64-bit `int`. -/
def minInt : Int := -9223372036854775808

/-- Largest value of Go's 64-bit `int`. -/
def maxInt : Int := 9223372036854775807

/-- Go's `strconv.Atoi` on a 64-bit platform: an optional sign, then at least
one decimal digit and nothing else, the value within the range of `int`;
`none` stands for a non-nil error. -/
def Atoi (s : List Char) : Option Int :=
  match s with
  | [] => none
  | c :: cs =>
    let neg := decide (c = '-')
    let ds := if c = '-' ∨ c = '+' then cs else c :: cs
    if ds.isEmpty then none
    else
      match parseDigits ds 0 with
      | none => none
      | some n =>
        let v : Int := if neg then -(n : Int) else (n : Int)
        if minInt ≤ v ∧ v ≤ maxInt then some v else none

/-- Two's-complement wrap-around of Go's 64-bit `int`. -/
def wrap64 (x : Int) : Int := (x + 9223372036854775808) % 18446744073709551616 - 9223372036854775808

/-- The verb `%d` of `fmt.Sprintf` on an `int`. -/
def formatInt : Int → List Char
  | Int.ofNat k => Nat.toDigits 10 k
  | Int.negSucc k => '-' :: Nat.toDigits 10 (k + 1)

/-! ## Terminal colours -/

def reset : List Char := "\x1b[0m".toList
def red : List Char := "\x1b[31m".toList
def green : List Char := "\x1b[32m".toList
def blue : List Char := "\x1b[34m".toList
/-- The network name `scanPort` passes to `net.DialTimeout`. -/
def tcp : List Char := ['t', 'c', 'p']

/-- The word by which `scanHost` recognises an open port. -/
def abierto : List Char := ['A', 'b', 'i', 'e', 'r', 't', 'o']

/-- The text `parseTargets` looks for in a target. -/
def slash : List Char := ['/']

/-- The message `processRange` logs for a block it cannot interpret. -/
def rangeError (block : List Char) : List Char :=
  red ++ "[!] Error interpretando rango: ".toList ++ block ++ reset

/-- What the producer goroutine of `processRange` has done: the ports handed to
the channel in order, the messages passed to `log.Printf`, and whether the
goroutine has returned (which closes the channel). -/
structure Produced where
  ports : List Int
  errors : List (List Char)
  closed : Bool
  deriving DecidableEq

/-- The loop `for port := minPort; port <= maxPort; port++` of `processRange`
with a consumer that always accepts and `done` never ready.  `fuel` bounds the
number of iterations; the result is the ports emitted (appended to `acc`) and
whether the loop was left. -/
def portLoop : Nat → Int → Int → List Int → List Int × Bool
  | 0, _, _, acc => (acc, false)
  | fuel + 1, port, maxPort, acc =>
    if port ≤ maxPort then portLoop fuel (wrap64 (port + 1)) maxPort (acc ++ [port])
    else (acc, true)

/-- The loop `for _, block := range blocks` of `processRange`; `fuel` bounds
the iterations of each port loop. -/
def processBlocks (fuel : Nat) : List (List Char) → Produced → Produced
  | [], st => { st with closed := true }
  | block :: rest, st =>
    let rg := Split '-' block
    match Atoi (rg.headD []) with
    | none => processBlocks fuel rest { st with errors := st.errors ++ [rangeError block] }
    | some minPort =>
      let bound : Option Int := if rg.length = 1 then some minPort else Atoi (rg.getD 1 [])
      match bound with
      | none => processBlocks fuel rest { st with errors := st.errors ++ [rangeError block] }
      | some maxPort =>
        match portLoop fuel minPort maxPort st.ports with
        | (ps, true) => processBlocks fuel rest { st with ports := ps }
        | (ps, false) => { st with ports := ps }

/-- The goroutine of `processRange(ctx, r)` when `ctx` is never cancelled and
the consumer always accepts. -/
def processRange (fuel : Nat) (r : List Char) : Produced :=
  processBlocks fuel (Split ',' r) ⟨[], [], false⟩

/-- The bounds `processRange` reads from the parts `rg` of a block: `none`
when it logs an error and skips the block. -/
def boundsOf (rg : List (List Char)) : Option (Int × Int) :=
  match Atoi (rg.headD []) with
  | none => none
  | some minPort =>
    if rg.length = 1 then some (minPort, minPort)
    else
      match Atoi (rg.getD 1 []) with
      | none => none
      | some maxPort => some (minPort, maxPort)

/-- The bounds `processRange` reads from a block. -/
def blockBounds (block : List Char) : Option (Int × Int) := boundsOf (Split '-' block)

/-- A block in which a bound fails integer parsing: the first part, or the
second part when there is one. -/
def malformed (block : List Char) : Bool :=
  (Atoi ((Split '-' block).headD [])).isNone
    || (decide ((Split '-' block).length ≠ 1) && (Atoi ((Split '-' block).getD 1 [])).isNone)

/-- A block as the specification reads it: a single integer, or a `min-max`
pair of integers, an integer being a text `strconv.Atoi` accepts; `none` for
any other block. -/
def specBounds (block : List Char) : Option (Int × Int) :=
  match Split '-' block with
  | [a] =>
    match Atoi a with
    | some v => some (v, v)
    | none => none
  | [a, b] =>
    match Atoi a, Atoi b with
    | some lo, some hi => some (lo, hi)
    | _, _ => none
  | _ => none

/-- The ascending list `[lo, lo+1, ..., hi]`, empty when `lo > hi`. -/
def portsOfBlock (lo hi : Int) : List Int :=
  (List.range (hi + 1 - lo).toNat).map (fun (k : Nat) => lo + (k : Int))

/-- The ports emitted and whether the channel is closed, without the log. -/
def Produced.view (p : Produced) : List Int × Bool := (p.ports, p.closed)

/-- The state of the producer goroutine of `processRange` on entry. -/
def Produced.init : Produced := { ports := [], errors := [], closed := false }

/-! ## The `net` package, as far as `expandCIDR` uses it -/

/-- A Go `net.IP` or `net.IPMask`: a slice of bytes, `[]` standing for `nil`. -/
abbrev IP := List Nat

/-- A Go `net.IPNet`. -/
structure IPNet where
  IP : QuickScan.IP
  Mask : QuickScan.IP
  deriving DecidableEq

/-- The part of the `net` package that is not modelled: the text form of IPv6
addresses.  `parse` stands for `netip.ParseAddr` on a text whose first special
character is `:` (the 16 bytes of an address without zone, `none` for an
error or a zone), `format` for `IP.String` on a slice that is not an IPv4
address. -/
structure V6 where
  parse : List Char → Option IP
  format : IP → List Char

/-- The bytes `00 00 00 00 00 00 00 00 00 00 ff ff` that precede an IPv4
address in its 16-byte form. -/
def v4InV6 : IP := [0, 0, 0, 0, 0, 0, 0, 0, 0, 0, 255, 255]

/-- Go's `netip.parseIPv4Fields`: `fields` are the octets completed so far,
`val` and `digLen` the value and digit count of the current octet, `prev` the
previous character (`none` at index 0). -/
def parseIPv4Fields : List Char → Option Char → List Nat → Nat → Nat → Option (List Nat)
  | [], _, fields, val, _ => if fields.length < 3 then none else some (fields ++ [val])
  | c :: cs, prev, fields, val, digLen =>
    match digitVal c with
    | some d =>
      if digLen = 1 ∧ val = 0 then none
      else if val * 10 + d > 255 then none
      else parseIPv4Fields cs (some c) fields (val * 10 + d) (digLen + 1)
    | none =>
      if c = '.' then
        if prev = none ∨ cs.isEmpty ∨ prev = some '.' then none
        else if fields.length = 3 then none
        else parseIPv4Fields cs (some c) (fields ++ [val]) 0 0
      else none

/-- Go's `netip.ParseAddr`, returning the 16-byte form of the address and its
bit length: the first `.`, `:` or `%` of the text decides the syntax. -/
def ParseAddr (v6 : V6) (s : List Char) : Option (IP × Nat) :=
  match s.find? (fun c => c = '.' ∨ c = ':' ∨ c = '%') with
  | some '.' =>
    match parseIPv4Fields s none [] 0 0 with
    | some fields => some (v4InV6 ++ fields, 32)
    | none => none
  | some ':' =>
    match v6.parse s with
    | some b => some (b, 128)
    | none => none
  | _ => none

/-- Go's `net.dtoi`: the decimal number at the start of `s`, the number of
characters it takes, and whether there was one below `0xFFFFFF`. -/
def dtoi : List Char → Nat → Nat → Nat × Nat × Bool
  | [], n, i => if i = 0 then (0, 0, false) else (n, i, true)
  | c :: cs, n, i =>
    match digitVal c with
    | some d => if n * 10 + d ≥ 16777215 then (16777215, i, false) else dtoi cs (n * 10 + d) (i + 1)
    | none => if i = 0 then (0, 0, false) else (n, i, true)

/-- The loop of Go's `net.CIDRMask`: `l` bytes of which the first `n` bits are
ones. -/
def maskBytes : Nat → Nat → IP
  | 0, _ => []
  | l + 1, n =>
    if n ≥ 8 then 255 :: maskBytes l (n - 8)
    else (255 ^^^ (255 >>> n)) :: maskBytes l 0

/-- Go's `net.CIDRMask(ones, bits)`. -/
def CIDRMask (ones bits : Nat) : IP :=
  if bits ≠ 32 ∧ bits ≠ 128 then []
  else if ones > bits then []
  else maskBytes (bits / 8) ones

/-- Go's `IP.Mask`. -/
def Mask (ip mask : IP) : IP :=
  let mask := if mask.length = 16 ∧ ip.length = 4 ∧ (mask.take 12).all (fun b => b = 255) then mask.drop 12 else mask
  let ip := if mask.length = 4 ∧ ip.length = 16 ∧ ip.take 12 = v4InV6 then ip.drop 12 else ip
  if ip.length ≠ mask.length then []
  else List.zipWith (fun a b => a &&& b) ip mask

/-- Go's `IP.To4`. -/
def To4 (ip : IP) : Option IP :=
  if ip.length = 4 then some ip
  else if ip.length = 16 ∧ (ip.take 10).all (fun b => b = 0) ∧ ip.getD 10 0 = 255 ∧ ip.getD 11 0 = 255 then
    some (ip.drop 12)
  else none

/-- Go's `net.networkNumberAndMask`. -/
def networkNumberAndMask (n : IPNet) : IP × IP :=
  match (match To4 n.IP with
         | some x => some x
         | none => if n.IP.length ≠ 16 then none else some n.IP) with
  | none => ([], [])
  | some ip =>
    if n.Mask.length = 4 then
      if ip.length ≠ 4 then ([], []) else (ip, n.Mask)
    else if n.Mask.length = 16 then
      if ip.length = 4 then (ip, n.Mask.drop 12) else (ip, n.Mask)
    else ([], [])

/-- Go's `IPNet.Contains`. -/
def IPNet.Contains (n : IPNet) (ip : QuickScan.IP) : Bool :=
  let nm := networkNumberAndMask n
  let ip := match To4 ip with
    | some x => x
    | none => ip
  if ip.length ≠ nm.1.length then false
  else (List.zipWith (fun a b => decide (a.1 &&& b = a.2 &&& b)) (List.zip nm.1 ip) nm.2).all id

/-- Go's `ubtoa`: decimal text of a byte. -/
def ubtoa (v : Nat) : List Char :=
  if v < 10 then [Char.ofNat (v + 48)]
  else if v < 100 then [Char.ofNat (v / 10 + 48), Char.ofNat (v % 10 + 48)]
  else [Char.ofNat (v / 100 + 48), Char.ofNat (v / 10 % 10 + 48), Char.ofNat (v % 10 + 48)]

/-- Go's `IP.String`: dotted decimal for an IPv4 address in either form. -/
def ipString (v6 : V6) (ip : IP) : List Char :=
  match To4 ip with
  | some [a, b, c, d] => ubtoa a ++ '.' :: ubtoa b ++ '.' :: ubtoa c ++ '.' :: ubtoa d
  | _ => v6.format ip

/-! ## expandCIDR, incIP, parseTargets -/

/-- The loop of `incIP` seen from the last byte: add one, carry while the byte
wraps to zero. -/
def incRev : List Nat → List Nat
  | [] => []
  | b :: bs =>
    if (b + 1) % 256 ≠ 0 then (b + 1) % 256 :: bs
    else (b + 1) % 256 :: incRev bs

/-- The function `incIP`: the slice after the in-place increment. -/
def incIP (ip : IP) : IP := (incRev ip.reverse).reverse

/-- Go's `net.ParseCIDR`. -/
def ParseCIDR (v6 : V6) (s : List Char) : Option (IP × IPNet) :=
  if s.all (fun c => c ≠ '/') then none
  else
    let addr := s.takeWhile (fun c => c ≠ '/')
    let mask := (s.dropWhile (fun c => c ≠ '/')).drop 1
    match ParseAddr v6 addr with
    | none => none
    | some (addr16, bitLen) =>
      match dtoi mask 0 0 with
      | (n, i, ok) =>
        if !ok ∨ i ≠ mask.length ∨ n > bitLen then none
        else some (addr16, { IP := Mask addr16 (CIDRMask n bitLen), Mask := CIDRMask n bitLen })

/-- The loop `for ip := ip.Mask(ipNet.Mask); ipNet.Contains(ip); incIP(ip)` of
`expandCIDR`; `fuel` bounds the number of iterations and `none` says that the
loop has not been left within them. -/
def expandLoop (v6 : V6) (ipNet : IPNet) : Nat → IP → List (List Char) → Option (List (List Char))
  | 0, _, _ => none
  | fuel + 1, ip, ips =>
    if ipNet.Contains ip then expandLoop v6 ipNet fuel (incIP ip) (ips ++ [ipString v6 ip])
    else some ips

/-- The function `expandCIDR`. -/
def expandCIDR (v6 : V6) (fuel : Nat) (cidr : List Char) : Option (List (List Char)) :=
  match ParseCIDR v6 cidr with
  | none => some []
  | some (ip, ipNet) => expandLoop v6 ipNet fuel (Mask ip ipNet.Mask) []

/-- The function `parseTargets`. -/
def parseTargets (v6 : V6) (fuel : Nat) (target : List Char) : Option (List (List Char)) :=
  if Contains target slash then
    match expandCIDR v6 fuel target with
    | none => none
    | some expanded => if expanded.length > 0 then some expanded else some [target]
  else some [target]

/-- The address a 4-byte slice stands for, as a number. -/
def val4 : IP → Nat
  | [a, b, c, d] => ((a * 256 + b) * 256 + c) * 256 + d
  | _ => 0

/-- The 4-byte slice of the address with number `v`. -/
def bytes4 (v : Nat) : IP := [v / 16777216 % 256, v / 65536 % 256, v / 256 % 256, v % 256]

/-- The byte of a mask that has `k` leading ones left to place. -/
def byteMask (k : Nat) : Nat := if k ≥ 8 then 255 else 255 ^^^ (255 >>> k)

/-! ## scanPort -/

/-- The ways `net.DialTimeout` fails. -/
inductive DialError where
  | timeout
  | refused
  | unreachable
  | dnsFailure
  | other (msg : List Char)
  deriving DecidableEq

/-- A call into the `net` package made by a probe. -/
inductive NetCall where
  | dialTimeout (network address : List Char) (tOut : Int)
  | close (conn : Nat)
  deriving DecidableEq

/-- The network as a probe sees it: the result of `net.DialTimeout` for a
network, an address and a timeout, a connection being named by a number. -/
abbrev Dialer := List Char → List Char → Int → Except DialError Nat

/-- The line `scanPort` returns for a port whose probe failed. -/
def closedLine (port : Int) : List Char := formatInt port ++ ": Cerrado".toList

/-- The line `scanPort` returns for a port whose probe succeeded. -/
def openLine (port : Int) : List Char :=
  formatInt port ++ ": ".toList ++ green ++ abierto ++ reset

/-- The function `scanPort`: the calls it makes into the `net` package, in
order, and the line it returns. -/
def scanPort (dial : Dialer) (host : List Char) (port : Int) (tOut : Int) : List NetCall × List Char :=
  let addr := host ++ ':' :: formatInt port
  match dial tcp addr tOut with
  | Except.error _ => ([NetCall.dialTimeout tcp addr tOut], closedLine port)
  | Except.ok conn => ([NetCall.dialTimeout tcp addr tOut, NetCall.close conn], openLine port)

/-! ## scanHost and the loop of main -/

/-- The cancellation signal `ctx` shared by all stages: `done` says whether
`cancel` has been called, that is, whether `ctx.Done()` is closed. -/
structure Context where
  done : Bool
  deriving DecidableEq

/-- State of `main` once the target list is built: the targets its loop has not
reached yet, the context made by `context.WithCancel`, whether `main` has
returned, and the writes of the scans to standard output so far. -/
structure MainState where
  remaining : List (List Char)
  ctx : Context
  returned : Bool
  out : List (List Char)
  deriving DecidableEq

/-- State of `main` on entry to its loop over `targets`: nothing has called
`cancel`, which `main` only defers. -/
def MainState.init (targets : List (List Char)) : MainState :=
  { remaining := targets, ctx := { done := false }, returned := false, out := [] }

/-- Where a worker goroutine of `scanPorts` stands. -/
inductive Worker where
  | selecting
  | probing (port : Int)
  | sending (s : List Char)
  | exited
  deriving DecidableEq

/-- State of `scanPorts`: the counter `i` of the spawning loop and the workers
started so far. -/
structure Pool where
  i : Nat
  workers : List Worker
  deriving DecidableEq

/-- State of `scanPorts` on entry. -/
def Pool.init : Pool := { i := 0, workers := [] }

/-- One step of `scanPorts` with `threads` workers requested: the spawning loop
starts a worker, or worker `k` moves on: it receives a port and calls
`scanPort`, finds the input closed or `done` ready and returns, gets the line
of `scanPort` back, hands the line to `out`, or finds `done` ready instead. -/
inductive Step (threads : Nat) : Pool → Pool → Prop where
  | spawn (s : Pool) : s.i < threads →
      Step threads s { i := s.i + 1, workers := s.workers ++ [Worker.selecting] }
  | receive (s : Pool) (k : Nat) (port : Int) : s.workers.get? k = some Worker.selecting →
      Step threads s { s with workers := s.workers.set k (Worker.probing port) }
  | inputClosed (s : Pool) (k : Nat) : s.workers.get? k = some Worker.selecting →
      Step threads s { s with workers := s.workers.set k Worker.exited }
  | doneSelecting (s : Pool) (k : Nat) : s.workers.get? k = some Worker.selecting →
      Step threads s { s with workers := s.workers.set k Worker.exited }
  | probeReturns (s : Pool) (k : Nat) (port : Int) (dial : Dialer) (host : List Char) (tOut : Int) :
      s.workers.get? k = some (Worker.probing port) →
      Step threads s { s with workers := s.workers.set k (Worker.sending (scanPort dial host port tOut).2) }
  | handOff (s : Pool) (k : Nat) (line : List Char) : s.workers.get? k = some (Worker.sending line) →
      Step threads s { s with workers := s.workers.set k Worker.selecting }
  | doneSending (s : Pool) (k : Nat) (line : List Char) : s.workers.get? k = some (Worker.sending line) →
      Step threads s { s with workers := s.workers.set k Worker.exited }

/-- States `scanPorts` can reach from its entry. -/
inductive Reachable (threads : Nat) : Pool → Prop where
  | init : Reachable threads Pool.init
  | step (s t : Pool) : Reachable threads s → Step threads s t → Reachable threads t

/-- Whether a worker is inside a call of `scanPort`. -/
def Worker.isProbing : Worker → Bool
  | Worker.probing _ => true
  | _ => false

/-- Number of probe attempts that have started and not yet returned. -/
def Pool.unresolved (s : Pool) : Nat := s.workers.countP Worker.isProbing

/-- An IPv6 collaborator that accepts no text, for evaluating IPv4 inputs. -/
def noV6 : V6 := ⟨fun _ => none, fun _ => []⟩

/-! ## Lemmas on the library functions -/

theorem Contains_of_not_mem (c : Char) (rest : List Char) :
    ∀ s : List Char, c ∉ s → Contains s (c :: rest) = false
  | [], _ => by simp [Contains]
  | d :: ds, h => by
    have h1 : ¬ c = d := fun e => h (by simp [e])
    have h2 : c ∉ ds := fun e => h (by simp [e])
    simp [Contains, List.isPrefixOf, h1, Contains_of_not_mem c rest ds h2]

/-- C4: a token without `/`, and a token that `net.ParseCIDR` rejects, is
returned by `parseTargets` as the one-element list holding the token
unchanged, whatever the fuel. -/
theorem parseTargets_non_cidr (v6 : V6) (fuel : Nat) (token : List Char)
    (h : '/' ∉ token ∨ ParseCIDR v6 token = none) :
    parseTargets v6 fuel token = some [token] := by
  unfold parseTargets
  by_cases hc : Contains token slash = true
  · rcases h with h | h
    · rw [show slash = '/' :: [] from rfl, Contains_of_not_mem '/' [] token h] at hc
      exact Bool.noConfusion hc
    · simp [hc, expandCIDR, h]
  · simp [hc]

/-- Witness for C4: a host name and a CIDR text with a prefix length out of
range. -/
theorem parseTargets_non_cidr_witness :
    parseTargets noV6 0 "example.com".toList = some ["example.com".toList]
    ∧ parseTargets noV6 0 "10.0.0.1/33".toList = some ["10.0.0.1/33".toList] :=
  ⟨parseTargets_non_cidr noV6 0 "example.com".toList (Or.inl (by decide)),
   parseTargets_non_cidr noV6 0 "10.0.0.1/33".toList (Or.inr (by decide))⟩

theorem step_preserves_count (threads : Nat) (s t : Pool) (h : Step threads s t)
    (hs : s.workers.length = s.i ∧ s.i ≤ threads) : t.workers.length = t.i ∧ t.i ≤ threads := by
  cases h with
  | spawn hlt => exact ⟨by simp [hs.1], hlt⟩
  | receive k port _ => simpa using hs
  | inputClosed k _ => simpa using hs
  | doneSelecting k _ => simpa using hs
  | probeReturns k port dial host tOut _ => simpa using hs
  | handOff k line _ => simpa using hs
  | doneSending k line _ => simpa using hs

theorem reachable_count (threads : Nat) (s : Pool) (h : Reachable threads s) :
    s.workers.length = s.i ∧ s.i ≤ threads := by
  induction h with
  | init => exact ⟨rfl, Nat.zero_le _⟩
  | step s t _ hst ih => exact step_preserves_count threads s t hst ih

theorem reachable_spawned (threads : Nat) : ∀ k : Nat, k ≤ threads →
    Reachable threads { i := k, workers := List.replicate k Worker.selecting }
  | 0, _ => Reachable.init
  | k + 1, hk => by
    have h := reachable_spawned threads k (Nat.le_of_succ_le hk)
    have hs := @Step.spawn threads { i := k, workers := List.replicate k Worker.selecting }
      (Nat.lt_of_succ_le hk)
    have e : List.replicate k Worker.selecting ++ [Worker.selecting] =
        List.replicate (k + 1) Worker.selecting := by
      rw [List.replicate_succ']
    simp only [e] at hs
    exact Reachable.step _ _ h hs

/-- C8: in every state `scanPorts` reaches with `threads` workers requested,
the workers started are as many as the spawning loop has counted and at most
`threads`, the probe attempts started and not yet returned are at most
`threads`, and once the spawning loop is over the workers are exactly
`threads`; the state with all `threads` workers started is reached. -/
theorem scanPorts_unresolved_le_threads (threads : Nat) (s : Pool) (h : Reachable threads s) :
    s.workers.length = s.i
    ∧ s.workers.length ≤ threads
    ∧ s.unresolved ≤ threads
    ∧ (¬ s.i < threads → s.workers.length = threads)
    ∧ Reachable threads { i := threads, workers := List.replicate threads Worker.selecting } := by
  obtain ⟨h1, h2⟩ := reachable_count threads s h
  refine ⟨h1, h1 ▸ h2, ?_, ?_, reachable_spawned threads threads (Nat.le_refl _)⟩
  · exact Nat.le_trans (List.countP_le_length _) (h1 ▸ h2)
  · intro hn
    omega

/-- Witness for C8: two workers requested, both started, the first inside a
probe of port 80. -/
theorem scanPorts_unresolved_le_threads_witness :
    Reachable 2 { i := 2, workers := [Worker.probing 80, Worker.selecting] }
    ∧ (Pool.unresolved { i := 2, workers := [Worker.probing 80, Worker.selecting] } ≤ 2) :=
  have hr : Reachable 2 { i := 2, workers := [Worker.probing 80, Worker.selecting] } :=
    Reachable.step _ _ (reachable_spawned 2 2 (Nat.le_refl _))
      (Step.receive { i := 2, workers := [Worker.selecting, Worker.selecting] } 0 80 rfl)
  ⟨hr, (scanPorts_unresolved_le_threads 2 _ hr).2.2.1⟩

/-! ### processRange -/

theorem processBlocks_cons (fuel : Nat) (block : List Char) (rest : List (List Char)) (st : Produced) :
    processBlocks fuel (block :: rest) st =
      match blockBounds block with
      | none => processBlocks fuel rest { st with errors := st.errors ++ [rangeError block] }
      | some (minPort, maxPort) =>
        if (portLoop fuel minPort maxPort st.ports).2 then
          processBlocks fuel rest { st with ports := (portLoop fuel minPort maxPort st.ports).1 }
        else { st with ports := (portLoop fuel minPort maxPort st.ports).1 } := by
  rw [processBlocks]
  unfold blockBounds boundsOf
  cases h0 : Atoi ((Split '-' block).headD []) with
  | none => rfl
  | some minPort =>
    by_cases h1 : (Split '-' block).length = 1
    · simp only [h1, if_true]
      rcases hp : portLoop fuel minPort minPort st.ports with ⟨ps, b⟩
      cases b <;> simp [hp]
    · simp only [h1, if_false]
      cases h2 : Atoi ((Split '-' block).getD 1 []) with
      | none => rfl
      | some maxPort =>
        rcases hp : portLoop fuel minPort maxPort st.ports with ⟨ps, b⟩
        cases b <;> simp [hp]

theorem wrap64_le (x : Int) : wrap64 x ≤ maxInt := by
  unfold wrap64 maxInt
  omega

theorem wrap64_id (x : Int) (h1 : minInt ≤ x) (h2 : x ≤ maxInt) : wrap64 x = x := by
  unfold wrap64
  unfold minInt at h1
  unfold maxInt at h2
  omega

theorem portLoop_maxInt : ∀ (fuel : Nat) (port : Int) (acc : List Int), port ≤ maxInt →
    (portLoop fuel port maxInt acc).2 = false ∧ (portLoop fuel port maxInt acc).1.length = acc.length + fuel
  | 0, _, _, _ => by simp [portLoop]
  | fuel + 1, port, acc, h => by
    have ih := portLoop_maxInt fuel (wrap64 (port + 1)) (acc ++ [port]) (wrap64_le _)
    simp only [portLoop, h, if_true]
    refine ⟨ih.1, ?_⟩
    rw [ih.2]
    simp
    omega

/-- C9 fails on the code: for the specification `9223372036854775807` the
producer never leaves its port loop.  Whatever the number of iterations
allowed, the channel is not closed and that many ports have been emitted. -/
theorem processRange_maxInt_never_closes (fuel : Nat) :
    (processRange fuel "9223372036854775807".toList).closed = false
    ∧ (processRange fuel "9223372036854775807".toList).ports.length = fuel := by
  have hs : Split ',' "9223372036854775807".toList = ["9223372036854775807".toList] := by decide
  have hb : blockBounds "9223372036854775807".toList = some (maxInt, maxInt) := by decide
  have hl := portLoop_maxInt fuel maxInt [] (le_refl _)
  unfold processRange
  rw [hs, processBlocks_cons, hb]
  simp only [hl.1]
  exact ⟨rfl, by simpa using hl.2⟩

theorem portLoop_acc : ∀ (fuel : Nat) (port maxPort : Int) (acc : List Int),
    portLoop fuel port maxPort acc =
      (acc ++ (portLoop fuel port maxPort []).1, (portLoop fuel port maxPort []).2)
  | 0, _, _, _ => by simp [portLoop]
  | fuel + 1, port, maxPort, acc => by
    by_cases h : port ≤ maxPort
    · simp only [portLoop, h, if_true]
      rw [portLoop_acc fuel _ _ (acc ++ [port]), portLoop_acc fuel _ _ ([] ++ [port])]
      simp
    · simp [portLoop, h]

/-- The same overflow on a `min-max` pair: for the specification
`9223372036854775806-9223372036854775807` the ports emitted are not the two of
the block; after the upper bound the counter wraps to the smallest `int` and
production goes on without closing the channel. -/
theorem processRange_maxInt_pair_wraps (fuel : Nat) :
    (processRange (fuel + 3) "9223372036854775806-9223372036854775807".toList).ports.take 3
        = [9223372036854775806, 9223372036854775807, -9223372036854775808]
    ∧ (processRange (fuel + 3) "9223372036854775806-9223372036854775807".toList).closed = false := by
  have hs : Split ',' "9223372036854775806-9223372036854775807".toList =
      ["9223372036854775806-9223372036854775807".toList] := by decide
  have hb : blockBounds "9223372036854775806-9223372036854775807".toList =
      some (9223372036854775806, maxInt) := by decide
  have h3 : portLoop (fuel + 3) 9223372036854775806 maxInt [] =
      portLoop fuel (wrap64 (minInt + 1)) maxInt [9223372036854775806, maxInt, minInt] := by
    have e1 : wrap64 (9223372036854775806 + 1) = maxInt := by decide
    have e2 : wrap64 (maxInt + 1) = minInt := by decide
    have l1 : (9223372036854775806 : Int) ≤ maxInt := by decide
    have l2 : minInt ≤ maxInt := by decide
    simp only [portLoop, l1, if_true, e1, le_refl, e2, l2, List.nil_append, List.cons_append]
  have hl := portLoop_maxInt fuel (wrap64 (minInt + 1)) [9223372036854775806, maxInt, minInt] (wrap64_le _)
  have ha := portLoop_acc fuel (wrap64 (minInt + 1)) maxInt [9223372036854775806, maxInt, minInt]
  unfold processRange
  rw [hs, processBlocks_cons, hb]
  simp only [h3, hl.1]
  refine ⟨?_, rfl⟩
  simp only [Bool.false_eq_true, if_false]
  rw [ha]
  rfl

theorem boundsOf_take_two (rg : List (List Char)) : boundsOf (rg.take 2) = boundsOf rg := by
  match rg with
  | [] => rfl
  | [_] => rfl
  | a :: b :: tl => simp [boundsOf]

theorem blockBounds_eq_none_iff (block : List Char) : blockBounds block = none ↔ malformed block = true := by
  unfold blockBounds boundsOf malformed
  cases h0 : Atoi ((Split '-' block).headD []) with
  | none => simp
  | some minPort =>
    by_cases h1 : (Split '-' block).length = 1
    · simp [h1]
    · cases h2 : Atoi ((Split '-' block).getD 1 []) <;> simp [h1]

theorem processBlocks_filter (fuel : Nat) (keep : List Char → Bool)
    (hk : ∀ b, keep b = false → blockBounds b = none) :
    ∀ (bs : List (List Char)) (st st' : Produced), st.view = st'.view →
      (processBlocks fuel bs st).view = (processBlocks fuel (bs.filter keep) st').view
  | [], st, st', h => by
    simp only [Produced.view, Prod.mk.injEq] at h
    simp [processBlocks, Produced.view, h.1]
  | block :: rest, st, st', h => by
    have hv := h
    simp only [Produced.view, Prod.mk.injEq] at h
    rw [processBlocks_cons]
    cases hb : blockBounds block with
    | none =>
      simp only
      by_cases hkb : keep block = true
      · rw [List.filter_cons_of_pos hkb, processBlocks_cons, hb]
        exact processBlocks_filter fuel keep hk rest _ _ hv
      · rw [List.filter_cons_of_neg hkb]
        exact processBlocks_filter fuel keep hk rest _ _ hv
    | some mm =>
      obtain ⟨minPort, maxPort⟩ := mm
      have hkb : keep block = true := by
        by_contra hf
        have := hk block (by simpa using hf)
        rw [hb] at this
        exact Option.noConfusion this
      rw [List.filter_cons_of_pos hkb, processBlocks_cons, hb]
      simp only [h.1]
      by_cases hp : (portLoop fuel minPort maxPort st'.ports).2 = true
      · simp only [hp, if_true]
        exact processBlocks_filter fuel keep hk rest _ _ (by simp [Produced.view, h.2])
      · simp [hp, Produced.view, h.2]

theorem Split_ne_nil (sep : Char) : ∀ s : List Char, Split sep s ≠ []
  | [] => by simp [Split]
  | c :: cs => by
    unfold Split
    by_cases h : c = sep
    · simp [h]
    · simp only [h, if_false]
      cases Split sep cs <;> simp

theorem Split_no_sep (sep : Char) : ∀ (s : List Char), ∀ b ∈ Split sep s, sep ∉ b
  | [], b, hb => by
    simp only [Split, List.mem_singleton] at hb
    simp [hb]
  | c :: cs, b, hb => by
    unfold Split at hb
    by_cases h : c = sep
    · simp only [h, if_true, List.mem_cons] at hb
      rcases hb with hb | hb
      · simp [hb]
      · exact Split_no_sep sep cs b hb
    · simp only [h, if_false] at hb
      cases hs : Split sep cs with
      | nil =>
        simp only [hs, List.mem_singleton] at hb
        simp [hb, Ne.symm h]
      | cons q qs =>
        simp only [hs, List.mem_cons] at hb
        rcases hb with hb | hb
        · have hq := Split_no_sep sep cs q (by simp [hs])
          simp [hb, Ne.symm h, hq]
        · exact Split_no_sep sep cs b (by simp [hs, hb])

theorem Split_of_no_sep (sep : Char) : ∀ p : List Char, sep ∉ p → Split sep p = [p]
  | [], _ => rfl
  | c :: cs, h => by
    have h1 : ¬ c = sep := fun e => h (by simp [e])
    have h2 : sep ∉ cs := fun e => h (by simp [e])
    simp [Split, h1, Split_of_no_sep sep cs h2]

theorem Split_append_sep (sep : Char) (t : List Char) :
    ∀ p : List Char, sep ∉ p → Split sep (p ++ sep :: t) = p :: Split sep t
  | [], _ => by simp [Split]
  | c :: cs, h => by
    have h1 : ¬ c = sep := fun e => h (by simp [e])
    have h2 : sep ∉ cs := fun e => h (by simp [e])
    simp [Split, h1, Split_append_sep sep t cs h2]

theorem Split_Join (sep : Char) : ∀ bs : List (List Char), bs ≠ [] → (∀ b ∈ bs, sep ∉ b) →
    Split sep (Join sep bs) = bs
  | [], h, _ => absurd rfl h
  | [p], _, h => by
    simpa [Join] using Split_of_no_sep sep p (h p (by simp))
  | p :: q :: ps, _, h => by
    have ih := Split_Join sep (q :: ps) (by simp) (fun b hb => h b (by simp [hb]))
    rw [Join, Split_append_sep sep _ p (h p (by simp)), ih]

/-- C3: a block in which a bound fails integer parsing contributes no port,
and the other blocks contribute what they contribute without it: the ports
emitted for a specification, and whether the channel gets closed, are those of
the specification with its malformed blocks removed, for every fuel; the code
skips such a block with a log message and goes on with the next block. -/
theorem processRange_skips_malformed_blocks (fuel : Nat) (r : List Char) :
    (processRange fuel r).ports =
        (processRange fuel (Join ',' ((Split ',' r).filter (fun b => !malformed b)))).ports
    ∧ (processRange fuel r).closed =
        (processRange fuel (Join ',' ((Split ',' r).filter (fun b => !malformed b)))).closed
    ∧ ∀ (block : List Char) (rest : List (List Char)) (st : Produced), malformed block = true →
        processBlocks fuel (block :: rest) st =
          processBlocks fuel rest { st with errors := st.errors ++ [rangeError block] } := by
  have hk : ∀ b, (fun b => !malformed b) b = false → blockBounds b = none := by
    intro b hb
    exact (blockBounds_eq_none_iff b).mpr (by simpa using hb)
  have hv : (processRange fuel r).view =
      (processRange fuel (Join ',' ((Split ',' r).filter (fun b => !malformed b)))).view := by
    unfold processRange
    rw [processBlocks_filter fuel _ hk (Split ',' r) _ _ rfl]
    cases hf : (Split ',' r).filter (fun b => !malformed b) with
    | nil =>
      have e : blockBounds [] = none := by decide
      rw [show Split ',' (Join ',' []) = [[]] from rfl, processBlocks_cons, e]
      simp [processBlocks, Produced.view]
    | cons b bs =>
      rw [Split_Join ',' (b :: bs) (by simp)]
      intro x hx
      rw [← hf] at hx
      exact Split_no_sep ',' r x (List.mem_filter.mp hx).1
  simp only [Produced.view, Prod.mk.injEq] at hv
  refine ⟨hv.1, hv.2, ?_⟩
  intro block rest st hm
  rw [processBlocks_cons, (blockBounds_eq_none_iff block).mpr hm]

/-- Witness for C3: `abc,22` yields exactly the port 22, as `22` alone does. -/
theorem processRange_skips_malformed_blocks_witness :
    (processRange 2 "abc,22".toList).ports = [22]
    ∧ (processRange 2 "abc,22".toList).ports = (processRange 2 "22".toList).ports
    ∧ processBlocks 2 ["abc".toList, "22".toList] Produced.init =
        processBlocks 2 ["22".toList] { Produced.init with errors := [rangeError "abc".toList] } :=
  ⟨by decide,
   (processRange_skips_malformed_blocks 2 "abc,22".toList).1.trans (by decide),
   (processRange_skips_malformed_blocks 2 "abc,22".toList).2.2 "abc".toList ["22".toList] Produced.init
     (by decide)⟩

/-- C10: what `processRange` emits for a block depends only on the first two
`-`-separated parts of the block.  Two blocks with the same first two parts
emit the same ports; a block logs an error only when one of its first two
parts fails to parse; a block `1-3-` followed by anything emits 1, 2, 3 and
logs nothing; a block that begins with `-` is skipped with a log message. -/
theorem processRange_block_first_two_parts (fuel : Nat) (rest : List (List Char)) (st : Produced) :
    (∀ b₁ b₂ : List Char, (Split '-' b₁).take 2 = (Split '-' b₂).take 2 →
        (processBlocks fuel (b₁ :: rest) st).ports = (processBlocks fuel (b₂ :: rest) st).ports
        ∧ (processBlocks fuel (b₁ :: rest) st).closed = (processBlocks fuel (b₂ :: rest) st).closed
        ∧ malformed b₁ = malformed b₂)
    ∧ (∀ block : List Char, (processBlocks fuel [block] st).errors =
        if malformed block then st.errors ++ [rangeError block] else st.errors)
    ∧ (∀ tail : List Char, (Split '-' ("1-3-".toList ++ tail)).take 2 = ["1".toList, "3".toList]
        ∧ processBlocks (fuel + 4) ["1-3-".toList ++ tail] st =
            { st with ports := st.ports ++ [1, 2, 3], closed := true })
    ∧ (∀ tail : List Char, processBlocks fuel (('-' :: tail) :: rest) st =
        processBlocks fuel rest { st with errors := st.errors ++ [rangeError ('-' :: tail)] }) := by
  have hbb : ∀ b₁ b₂ : List Char, (Split '-' b₁).take 2 = (Split '-' b₂).take 2 →
      blockBounds b₁ = blockBounds b₂ := by
    intro b₁ b₂ h
    unfold blockBounds
    rw [← boundsOf_take_two (Split '-' b₁), h, boundsOf_take_two]
  have hid : ∀ (bs : List (List Char)) (s s' : Produced), s.view = s'.view →
      (processBlocks fuel bs s).view = (processBlocks fuel bs s').view := by
    intro bs s s' h
    have := processBlocks_filter fuel (fun _ => true) (by simp) bs s s' h
    simpa using this
  refine ⟨?_, ?_, ?_, ?_⟩
  · intro b₁ b₂ h
    have hb := hbb b₁ b₂ h
    have hm : malformed b₁ = malformed b₂ := by
      have h1 := blockBounds_eq_none_iff b₁
      have h2 := blockBounds_eq_none_iff b₂
      rw [hb] at h1
      cases hm1 : malformed b₁ <;> cases hm2 : malformed b₂ <;> simp_all
    have hv : (processBlocks fuel (b₁ :: rest) st).view = (processBlocks fuel (b₂ :: rest) st).view := by
      rw [processBlocks_cons, processBlocks_cons, hb]
      cases blockBounds b₂ with
      | none => exact hid rest _ _ rfl
      | some mm => rfl
    simp only [Produced.view, Prod.mk.injEq] at hv
    exact ⟨hv.1, hv.2, hm⟩
  · intro block
    rw [processBlocks_cons]
    cases hb : blockBounds block with
    | none =>
      have hm := (blockBounds_eq_none_iff block).mp hb
      simp [hm, processBlocks]
    | some mm =>
      have hm : malformed block = false := by
        cases hm : malformed block
        · rfl
        · rw [(blockBounds_eq_none_iff block).mpr hm] at hb
          exact Option.noConfusion hb
      simp only [hm]
      split <;> simp [processBlocks]
  · intro tail
    have hs : Split '-' ("1-3-".toList ++ tail) = "1".toList :: "3".toList :: Split '-' tail := by
      have e : "1-3-".toList ++ tail = '1' :: '-' :: '3' :: '-' :: tail := rfl
      rw [e]
      have h1 : ¬ '1' = '-' := by decide
      have h3 : ¬ '3' = '-' := by decide
      simp only [Split, h1, h3, if_true, if_false]
      rfl
    have hb : blockBounds ("1-3-".toList ++ tail) = some (1, 3) := by
      unfold blockBounds
      rw [hs, ← boundsOf_take_two]
      simp only [List.take_succ_cons, List.take_zero]
      decide
    refine ⟨by rw [hs]; rfl, ?_⟩
    have hp : portLoop (fuel + 4) 1 3 st.ports = (st.ports ++ [1, 2, 3], true) := by
      have e1 : wrap64 2 = 2 := by decide
      have e2 : wrap64 3 = 3 := by decide
      have e3 : wrap64 4 = 4 := by decide
      simp [portLoop, e1, e2, e3]
    rw [processBlocks_cons, hb]
    simp [hp, processBlocks]
  · intro tail
    have hb : blockBounds ('-' :: tail) = none := by
      simp [blockBounds, boundsOf, Split, Atoi]
    rw [processBlocks_cons, hb]

/-- Witness for C10: `1-3-9` and `1-3-x` emit the same ports. -/
theorem processRange_block_first_two_parts_witness :
    (Split '-' "1-3-9".toList).take 2 = (Split '-' "1-3-x".toList).take 2
    ∧ (processBlocks 5 ["1-3-9".toList] Produced.init).ports
        = (processBlocks 5 ["1-3-x".toList] Produced.init).ports
    ∧ (processBlocks 5 ["1-3-x".toList] Produced.init) = ⟨[1, 2, 3], [], true⟩
    ∧ (processBlocks 5 ["-5".toList] Produced.init) = ⟨[], [rangeError "-5".toList], true⟩ :=
  ⟨by decide,
   ((processRange_block_first_two_parts 5 [] Produced.init).1 "1-3-9".toList "1-3-x".toList (by decide)).1,
   by decide, by decide⟩

theorem Atoi_range (s : List Char) (v : Int) (h : Atoi s = some v) : minInt ≤ v ∧ v ≤ maxInt := by
  cases s with
  | nil => exact Option.noConfusion h
  | cons c cs =>
    simp only [Atoi] at h
    by_cases hds : (if c = '-' ∨ c = '+' then cs else c :: cs).isEmpty = true
    · rw [if_pos hds] at h
      exact Option.noConfusion h
    · rw [if_neg hds] at h
      cases hp : parseDigits (if c = '-' ∨ c = '+' then cs else c :: cs) 0 with
      | none =>
        rw [hp] at h
        exact Option.noConfusion h
      | some n =>
        rw [hp] at h
        simp only at h
        by_cases hr : minInt ≤ (if decide (c = '-') = true then -(n : Int) else (n : Int))
            ∧ (if decide (c = '-') = true then -(n : Int) else (n : Int)) ≤ maxInt
        · rw [if_pos hr] at h
          cases h
          exact hr
        · rw [if_neg hr] at h
          exact Option.noConfusion h

theorem specBounds_blockBounds (block : List Char) (b : Int × Int) (h : specBounds block = some b) :
    blockBounds block = some b ∧ minInt ≤ b.1 := by
  unfold specBounds at h
  unfold blockBounds boundsOf
  split at h
  · rename_i a hs
    cases ha : Atoi a with
    | none => simp [ha] at h
    | some v =>
      simp only [ha, Option.some.injEq] at h
      subst h
      simp [hs, ha, (Atoi_range a v ha).1]
  · rename_i a c hs
    cases ha : Atoi a with
    | none => simp [ha] at h
    | some lo =>
      cases hc : Atoi c with
      | none => simp [ha, hc] at h
      | some hi =>
        simp only [ha, hc, Option.some.injEq] at h
        subst h
        simp [hs, ha, hc, (Atoi_range a lo ha).1]
  · exact Option.noConfusion h

theorem portsOfBlock_empty (lo hi : Int) (h : ¬ lo ≤ hi) : portsOfBlock lo hi = [] := by
  have : (hi + 1 - lo).toNat = 0 := by omega
  simp [portsOfBlock, this]

theorem portsOfBlock_cons (lo hi : Int) (h : lo ≤ hi) :
    portsOfBlock lo hi = lo :: portsOfBlock (lo + 1) hi := by
  have e : (hi + 1 - lo).toNat = (hi + 1 - (lo + 1)).toNat + 1 := by omega
  unfold portsOfBlock
  rw [e, List.range_succ_eq_map]
  simp only [List.map_cons, List.map_map, Nat.cast_zero, add_zero]
  congr 1
  apply List.map_congr_left
  intro k _
  show lo + ((k + 1 : Nat) : Int) = lo + 1 + (k : Int)
  omega

theorem portLoop_terminates (hi : Int) (hhi : hi < maxInt) :
    ∀ (d : Nat) (lo : Int) (fuel : Nat) (acc : List Int), minInt ≤ lo → (hi + 1 - lo).toNat = d →
      d < fuel → portLoop fuel lo hi acc = (acc ++ portsOfBlock lo hi, true)
  | 0, lo, fuel, acc, _, hd, hf => by
    obtain ⟨f, rfl⟩ : ∃ f, fuel = f + 1 := ⟨fuel - 1, by omega⟩
    have hlt : ¬ lo ≤ hi := by omega
    simp [portLoop, hlt, portsOfBlock_empty lo hi hlt]
  | d + 1, lo, fuel, acc, hlo, hd, hf => by
    obtain ⟨f, rfl⟩ : ∃ f, fuel = f + 1 := ⟨fuel - 1, by omega⟩
    have hle : lo ≤ hi := by omega
    have hw : wrap64 (lo + 1) = lo + 1 := by
      apply wrap64_id
      · omega
      · unfold maxInt at hhi ⊢
        omega
    have ih := portLoop_terminates hi hhi d (lo + 1) f (acc ++ [lo]) (by omega) (by omega) (by omega)
    simp only [portLoop, hle, if_true, hw, ih, portsOfBlock_cons lo hi hle]
    simp

theorem processBlocks_ranges (fuel : Nat) :
    ∀ (blocks : List (List Char)) (bounds : List (Int × Int)) (st : Produced),
      blocks.map specBounds = bounds.map some →
      (∀ b ∈ bounds, b.2 < maxInt ∧ (b.2 + 1 - b.1).toNat < fuel) →
      processBlocks fuel blocks st =
        { st with ports := st.ports ++ (bounds.map (fun b => portsOfBlock b.1 b.2)).flatten,
                  closed := true }
  | [], [], st, _, _ => by simp [processBlocks]
  | [], _ :: _, _, h, _ => by simp at h
  | _ :: _, [], _, h, _ => by simp at h
  | block :: rest, b :: bs, st, h, hb => by
    simp only [List.map_cons, List.cons.injEq] at h
    obtain ⟨h1, h2⟩ := specBounds_blockBounds block b h.1
    have hbb := hb b (by simp)
    have hp := portLoop_terminates b.2 hbb.1 _ b.1 fuel st.ports h2 rfl hbb.2
    have ih := processBlocks_ranges fuel rest bs { st with ports := st.ports ++ portsOfBlock b.1 b.2 }
      h.2 (fun x hx => hb x (by simp [hx]))
    rw [processBlocks_cons, h1]
    simp only [hp, if_true, ih]
    simp

theorem blockBounds_min (block : List Char) (lo hi : Int) (h : blockBounds block = some (lo, hi)) :
    minInt ≤ lo := by
  unfold blockBounds boundsOf at h
  cases ha : Atoi ((Split '-' block).headD []) with
  | none =>
    rw [ha] at h
    exact Option.noConfusion h
  | some v =>
    rw [ha] at h
    simp only at h
    have hv := (Atoi_range _ v ha).1
    by_cases h1 : (Split '-' block).length = 1
    · rw [if_pos h1] at h
      cases h
      exact hv
    · rw [if_neg h1] at h
      cases hb : Atoi ((Split '-' block).getD 1 []) with
      | none =>
        rw [hb] at h
        exact Option.noConfusion h
      | some w =>
        rw [hb] at h
        cases h
        exact hv

theorem processBlocks_closes (fuel : Nat) :
    ∀ (blocks : List (List Char)) (st : Produced),
      (∀ b ∈ blocks, ∀ lo hi : Int, blockBounds b = some (lo, hi) →
        hi < maxInt ∧ (hi + 1 - lo).toNat < fuel) →
      (processBlocks fuel blocks st).closed = true
  | [], st, _ => by simp [processBlocks]
  | block :: rest, st, h => by
    have ih : ∀ st', (processBlocks fuel rest st').closed = true :=
      fun st' => processBlocks_closes fuel rest st' (fun b hb => h b (by simp [hb]))
    rw [processBlocks_cons]
    cases hb : blockBounds block with
    | none => exact ih _
    | some mm =>
      obtain ⟨lo, hi⟩ := mm
      have hh := h block (by simp) lo hi hb
      have hp := portLoop_terminates hi hh.1 _ lo fuel st.ports (blockBounds_min block lo hi hb) rfl hh.2
      simp only [hp, if_true]
      exact ih _

/-- Finiteness away from the overflow: when no block of the specification has
the largest `int` as its upper bound, enough fuel lets the producer leave every
port loop and close its channel. -/
theorem processRange_closes (r : List Char)
    (hmax : ∀ b ∈ Split ',' r, ∀ lo hi : Int, blockBounds b = some (lo, hi) → hi < maxInt) :
    ∃ fuel : Nat, (processRange fuel r).closed = true := by
  have key : ∀ blocks : List (List Char), ∃ fuel : Nat, ∀ b ∈ blocks, ∀ lo hi : Int,
      blockBounds b = some (lo, hi) → (hi + 1 - lo).toNat < fuel := by
    intro blocks
    induction blocks with
    | nil => exact ⟨0, by simp⟩
    | cons b bs ih =>
      obtain ⟨f, hf⟩ := ih
      cases hb : blockBounds b with
      | none =>
        refine ⟨f, ?_⟩
        intro x hx lo hi hxb
        rcases List.mem_cons.mp hx with e | e
        · subst e
          rw [hb] at hxb
          exact Option.noConfusion hxb
        · exact hf x e lo hi hxb
      | some mm =>
        refine ⟨max f ((mm.2 + 1 - mm.1).toNat + 1), ?_⟩
        intro x hx lo hi hxb
        rcases List.mem_cons.mp hx with e | e
        · subst e
          rw [hb] at hxb
          cases hxb
          exact Nat.lt_of_lt_of_le (Nat.lt_succ_self _) (le_max_right _ _)
        · exact Nat.lt_of_lt_of_le (hf x e lo hi hxb) (le_max_left _ _)
  obtain ⟨fuel, hf⟩ := key (Split ',' r)
  exact ⟨fuel, processBlocks_closes fuel _ _ (fun b hb lo hi hbb => ⟨hmax b hb lo hi hbb, hf b hb lo hi hbb⟩)⟩

/-- C2, as the code has it: when every comma-separated block of the
specification is a single integer or a `min-max` pair of integers that
`strconv.Atoi` accepts, and every upper bound is below the largest `int`, the
producer, with fuel beyond the length of its longest block, emits exactly the
concatenation in block order of the ascending lists `[min, ..., max]` (one
integer for a single-integer block, nothing for a block with `min > max`, no
port dropped for its value), logs nothing and closes the channel. -/
theorem processRange_emits_block_ranges (r : List Char) (bounds : List (Int × Int)) (fuel : Nat)
    (hshape : (Split ',' r).map specBounds = bounds.map some)
    (hmax : ∀ b ∈ bounds, b.2 < maxInt)
    (hfuel : ∀ b ∈ bounds, (b.2 + 1 - b.1).toNat < fuel) :
    processRange fuel r =
      { ports := (bounds.map (fun b => portsOfBlock b.1 b.2)).flatten, errors := [], closed := true } := by
  unfold processRange
  rw [processBlocks_ranges fuel (Split ',' r) bounds _ hshape (fun b hb => ⟨hmax b hb, hfuel b hb⟩)]
  simp

/-- Witness for C2: `80,443,1000-1002` yields 80, 443, 1000, 1001, 1002 and
`10-5` yields nothing. -/
theorem processRange_emits_block_ranges_witness :
    processRange 4 "80,443,1000-1002".toList =
        { ports := [80, 443, 1000, 1001, 1002], errors := [], closed := true }
    ∧ processRange 1 "10-5".toList = { ports := [], errors := [], closed := true } :=
  ⟨(processRange_emits_block_ranges "80,443,1000-1002".toList [(80, 80), (443, 443), (1000, 1002)] 4
      (by decide) (by decide) (by decide)).trans (by decide),
   (processRange_emits_block_ranges "10-5".toList [(10, 5)] 1 (by decide) (by decide) (by decide)).trans
      (by decide)⟩

/-- C2 as stated fails: the block `99999999999999999999` is an integer, yet it
is beyond the range of `int`, `strconv.Atoi` rejects it and the block emits
nothing; and for the pair `9223372036854775806-9223372036854775807` the ports
emitted do not stop at the upper bound. -/
theorem processRange_integer_block_not_emitted :
    processRange 1 "99999999999999999999".toList =
      { ports := [], errors := [rangeError "99999999999999999999".toList], closed := true }
    ∧ (processRange 3 "9223372036854775806-9223372036854775807".toList).ports
        = [9223372036854775806, 9223372036854775807, -9223372036854775808] := by
  decide

/-! ### expandCIDR -/

theorem incRev_length : ∀ l : List Nat, (incRev l).length = l.length
  | [] => rfl
  | b :: bs => by
    unfold incRev
    split <;> simp [incRev_length bs]

theorem incIP_length (ip : IP) : (incIP ip).length = ip.length := by
  simp [incIP, incRev_length]

theorem Contains_slash_zero (ip : IP) (h : ip.length = 4) :
    IPNet.Contains { IP := [0, 0, 0, 0], Mask := [0, 0, 0, 0] } ip = true := by
  match ip, h with
  | [a, b, c, d], _ => simp [IPNet.Contains, networkNumberAndMask, To4]

theorem expandLoop_slash_zero (v6 : V6) : ∀ (fuel : Nat) (ip : IP) (ips : List (List Char)),
    ip.length = 4 → expandLoop v6 { IP := [0, 0, 0, 0], Mask := [0, 0, 0, 0] } fuel ip ips = none
  | 0, _, _, _ => rfl
  | fuel + 1, ip, ips, h => by
    rw [expandLoop, Contains_slash_zero ip h]
    simp only [if_true]
    exact expandLoop_slash_zero v6 fuel (incIP ip) _ (by rw [incIP_length, h])

/-- C1 fails on the code for a prefix length of 0: on the token `0.0.0.0/0`
the loop of `expandCIDR` is never left, since the network contains every
address and `incIP` wraps from `255.255.255.255` to `0.0.0.0`; whatever the
number of iterations allowed, `parseTargets` has not returned. -/
theorem parseTargets_slash_zero_never_returns (v6 : V6) (fuel : Nat) :
    parseTargets v6 fuel "0.0.0.0/0".toList = none := by
  have hp : ParseCIDR v6 "0.0.0.0/0".toList =
      some (v4InV6 ++ [0, 0, 0, 0], { IP := [0, 0, 0, 0], Mask := [0, 0, 0, 0] }) := by rfl
  have hc : Contains "0.0.0.0/0".toList slash = true := by decide
  have hm : Mask (v4InV6 ++ [0, 0, 0, 0]) [0, 0, 0, 0] = [0, 0, 0, 0] := by decide
  simp only [parseTargets, hc, if_true, expandCIDR, hp, hm]
  rw [expandLoop_slash_zero v6 fuel [0, 0, 0, 0] [] rfl]

/-! ### expandCIDR on IPv4 blocks -/

theorem bytes4_val4 (a b c d : Nat) (ha : a < 256) (hb : b < 256) (hc : c < 256) (hd : d < 256) :
    bytes4 (val4 [a, b, c, d]) = [a, b, c, d] := by
  simp only [bytes4, val4, List.cons.injEq, and_true]
  refine ⟨?_, ?_, ?_, ?_⟩ <;> omega

theorem val4_lt (a b c d : Nat) (ha : a < 256) (hb : b < 256) (hc : c < 256) (hd : d < 256) :
    val4 [a, b, c, d] < 4294967296 := by
  simp only [val4]
  omega

theorem incIP_val4 (a b c d : Nat) (ha : a < 256) (hb : b < 256) (hc : c < 256) (hd : d < 256) :
    ∃ a' b' c' d', incIP [a, b, c, d] = [a', b', c', d'] ∧ a' < 256 ∧ b' < 256 ∧ c' < 256 ∧ d' < 256
      ∧ val4 [a', b', c', d'] = (val4 [a, b, c, d] + 1) % 4294967296 := by
  simp only [incIP, List.reverse_cons, List.reverse_nil, List.nil_append, List.cons_append, incRev]
  split_ifs
  all_goals refine ⟨_, _, _, _, rfl, ?_, ?_, ?_, ?_, ?_⟩
  all_goals first | (simp only [val4]; omega) | omega

set_option maxRecDepth 100000 in
theorem land_255 : ∀ x : Nat, x < 256 → x &&& 255 = x := by decide
set_option maxRecDepth 100000 in
theorem land_254 : ∀ x : Nat, x < 256 → x &&& 254 = x / 2 * 2 := by decide
set_option maxRecDepth 100000 in
theorem land_252 : ∀ x : Nat, x < 256 → x &&& 252 = x / 4 * 4 := by decide
set_option maxRecDepth 100000 in
theorem land_248 : ∀ x : Nat, x < 256 → x &&& 248 = x / 8 * 8 := by decide
set_option maxRecDepth 100000 in
theorem land_240 : ∀ x : Nat, x < 256 → x &&& 240 = x / 16 * 16 := by decide
set_option maxRecDepth 100000 in
theorem land_224 : ∀ x : Nat, x < 256 → x &&& 224 = x / 32 * 32 := by decide
set_option maxRecDepth 100000 in
theorem land_192 : ∀ x : Nat, x < 256 → x &&& 192 = x / 64 * 64 := by decide
set_option maxRecDepth 100000 in
theorem land_128 : ∀ x : Nat, x < 256 → x &&& 128 = x / 128 * 128 := by decide
theorem land_idem (x m : Nat) : (x &&& m) &&& m = x &&& m := by
  rw [Nat.land_assoc, Nat.and_self]

theorem maskBytes_succ (l n : Nat) : maskBytes (l + 1) n = byteMask n :: maskBytes l (n - 8) := by
  rw [maskBytes]
  unfold byteMask
  by_cases h : n ≥ 8
  · simp [h]
  · have : n - 8 = 0 := by omega
    simp [h, this]

theorem maskBytes_four (n : Nat) :
    maskBytes 4 n = [byteMask n, byteMask (n - 8), byteMask (n - 16), byteMask (n - 24)] := by
  rw [maskBytes_succ, maskBytes_succ, maskBytes_succ, maskBytes_succ]
  simp only [maskBytes, Nat.sub_sub]

theorem land_byteMask (k x : Nat) (hx : x < 256) : x &&& byteMask k = x / 2 ^ (8 - k) * 2 ^ (8 - k) := by
  unfold byteMask
  by_cases h : k ≥ 8
  · have : 8 - k = 0 := by omega
    simp [h, this, land_255 x hx]
  · have hk : k < 8 := by omega
    simp only [h, if_false]
    interval_cases k
    · simp
      omega
    · simpa using land_128 x hx
    · simpa using land_192 x hx
    · simpa using land_224 x hx
    · simpa using land_240 x hx
    · simpa using land_248 x hx
    · simpa using land_252 x hx
    · simpa using land_254 x hx

theorem byteMask_agree (k x y : Nat) (hx : x < 256) (hy : y < 256) :
    (x &&& byteMask k) &&& byteMask k = y &&& byteMask k ↔ x / 2 ^ (8 - k) = y / 2 ^ (8 - k) := by
  rw [land_idem, land_byteMask k x hx, land_byteMask k y hy]
  constructor
  · intro h
    exact Nat.eq_of_mul_eq_mul_right (Nat.pow_pos (by decide)) h
  · intro h
    rw [h]

theorem div_pow_split (hi hi' x x' e : Nat) (hx : x < 256) (hx' : x' < 256) (he : e ≤ 8) :
    (hi * 256 + x) / 2 ^ e = (hi' * 256 + x') / 2 ^ e ↔ hi = hi' ∧ x / 2 ^ e = x' / 2 ^ e := by
  interval_cases e <;> simp <;> omega

theorem Contains_v4 (n : Nat) (hn : n ≤ 32) (a b c d p q r s : Nat) :
    IPNet.Contains { IP := Mask (v4InV6 ++ [a, b, c, d]) (CIDRMask n 32), Mask := CIDRMask n 32 } [p, q, r, s] = true
      ↔ ((a &&& byteMask n) &&& byteMask n = p &&& byteMask n)
        ∧ ((b &&& byteMask (n - 8)) &&& byteMask (n - 8) = q &&& byteMask (n - 8))
        ∧ ((c &&& byteMask (n - 16)) &&& byteMask (n - 16) = r &&& byteMask (n - 16))
        ∧ ((d &&& byteMask (n - 24)) &&& byteMask (n - 24) = s &&& byteMask (n - 24)) := by
  have hc : CIDRMask n 32 = [byteMask n, byteMask (n - 8), byteMask (n - 16), byteMask (n - 24)] := by
    have : ¬ n > 32 := by omega
    simp [CIDRMask, this, maskBytes_four]
  rw [hc]
  simp [IPNet.Contains, networkNumberAndMask, To4, Mask, v4InV6]
theorem byte_div_256 (x : Nat) (hx : x < 256) : x / 2 ^ 8 = 0 := Nat.div_eq_of_lt (by simpa using hx)

theorem div_pow_add (X k e : Nat) : X / 2 ^ (k + e) = X / 2 ^ k / 2 ^ e := by
  rw [pow_add, Nat.div_div_eq_div_mul]

theorem Contains_v4_iff (n : Nat) (hn : n ≤ 32) (a b c d p q r s : Nat)
    (ha : a < 256) (hb : b < 256) (hc : c < 256) (hd : d < 256)
    (hp : p < 256) (hq : q < 256) (hr : r < 256) (hs : s < 256) :
    IPNet.Contains { IP := Mask (v4InV6 ++ [a, b, c, d]) (CIDRMask n 32), Mask := CIDRMask n 32 } [p, q, r, s] = true
      ↔ val4 [p, q, r, s] / 2 ^ (32 - n) = val4 [a, b, c, d] / 2 ^ (32 - n) := by
  rw [Contains_v4 n hn, byteMask_agree _ _ _ ha hp, byteMask_agree _ _ _ hb hq,
    byteMask_agree _ _ _ hc hr, byteMask_agree _ _ _ hd hs]
  rcases (by omega : n ≤ 8 ∨ (8 < n ∧ n ≤ 16) ∨ (16 < n ∧ n ≤ 24) ∨ (24 < n ∧ n ≤ 32)) with h | h | h | h
  · have e1 : 8 - (n - 8) = 8 := by omega
    have e2 : 8 - (n - 16) = 8 := by omega
    have e3 : 8 - (n - 24) = 8 := by omega
    have e : 32 - n = 24 + (8 - n) := by omega
    have w : val4 [p, q, r, s] / 2 ^ 24 = p := by
      simp only [val4]
      omega
    have v : val4 [a, b, c, d] / 2 ^ 24 = a := by
      simp only [val4]
      omega
    rw [e1, e2, e3, e, div_pow_add, div_pow_add, w, v]
    simp only [byte_div_256, ha, hb, hc, hd, hp, hq, hr, hs, and_true]
    exact eq_comm
  · have e0 : 8 - n = 0 := by omega
    have e2 : 8 - (n - 16) = 8 := by omega
    have e3 : 8 - (n - 24) = 8 := by omega
    have e : 32 - n = 16 + (8 - (n - 8)) := by omega
    have w : val4 [p, q, r, s] / 2 ^ 16 = p * 256 + q := by
      simp only [val4]
      omega
    have v : val4 [a, b, c, d] / 2 ^ 16 = a * 256 + b := by
      simp only [val4]
      omega
    rw [e0, e2, e3, e, div_pow_add, div_pow_add, w, v, div_pow_split _ _ _ _ _ hq hb (by omega)]
    simp only [byte_div_256, ha, hb, hc, hd, hp, hq, hr, hs, and_true, pow_zero, Nat.div_one]
    constructor
    · rintro ⟨h1, h2⟩
      exact ⟨h1.symm, h2.symm⟩
    · rintro ⟨h1, h2⟩
      exact ⟨h1.symm, h2.symm⟩
  · have e0 : 8 - n = 0 := by omega
    have e1 : 8 - (n - 8) = 0 := by omega
    have e3 : 8 - (n - 24) = 8 := by omega
    have e : 32 - n = 8 + (8 - (n - 16)) := by omega
    have w : val4 [p, q, r, s] / 2 ^ 8 = (p * 256 + q) * 256 + r := by
      simp only [val4]
      omega
    have v : val4 [a, b, c, d] / 2 ^ 8 = (a * 256 + b) * 256 + c := by
      simp only [val4]
      omega
    rw [e0, e1, e3, e, div_pow_add, div_pow_add, w, v, div_pow_split _ _ _ _ _ hr hc (by omega)]
    simp only [byte_div_256, ha, hb, hc, hd, hp, hq, hr, hs, and_true, pow_zero, Nat.div_one]
    constructor
    · rintro ⟨h1, h2, h3⟩
      exact ⟨by omega, h3.symm⟩
    · rintro ⟨h1, h2⟩
      exact ⟨by omega, by omega, h2.symm⟩
  · have e0 : 8 - n = 0 := by omega
    have e1 : 8 - (n - 8) = 0 := by omega
    have e2 : 8 - (n - 16) = 0 := by omega
    have e : 32 - n = 8 - (n - 24) := by omega
    have w : val4 [p, q, r, s] = ((p * 256 + q) * 256 + r) * 256 + s := rfl
    have v : val4 [a, b, c, d] = ((a * 256 + b) * 256 + c) * 256 + d := rfl
    rw [e0, e1, e2, e, w, v, div_pow_split _ _ _ _ _ hs hd (by omega)]
    simp only [pow_zero, Nat.div_one]
    constructor
    · rintro ⟨h1, h2, h3, h4⟩
      exact ⟨by omega, h4.symm⟩
    · rintro ⟨h1, h2⟩
      exact ⟨by omega, by omega, by omega, h2.symm⟩
theorem div_mul_split (hi x e : Nat) (he : e ≤ 8) :
    (hi * 256 + x) / 2 ^ e * 2 ^ e = hi * 256 + x / 2 ^ e * 2 ^ e := by
  interval_cases e <;> simp <;> omega

theorem div_mul_pow_add (X k e : Nat) : X / 2 ^ (k + e) * 2 ^ (k + e) = X / 2 ^ k / 2 ^ e * 2 ^ e * 2 ^ k := by
  rw [div_pow_add, pow_add]
  ring

theorem Mask_v4 (n : Nat) (hn : n ≤ 32) (a b c d : Nat)
    (ha : a < 256) (hb : b < 256) (hc : c < 256) (hd : d < 256) :
    Mask (v4InV6 ++ [a, b, c, d]) (CIDRMask n 32) =
      bytes4 (val4 [a, b, c, d] / 2 ^ (32 - n) * 2 ^ (32 - n)) := by
  have hcm : CIDRMask n 32 = [byteMask n, byteMask (n - 8), byteMask (n - 16), byteMask (n - 24)] := by
    have : ¬ n > 32 := by omega
    simp [CIDRMask, this, maskBytes_four]
  have hm : Mask (v4InV6 ++ [a, b, c, d]) (CIDRMask n 32) =
      [a &&& byteMask n, b &&& byteMask (n - 8), c &&& byteMask (n - 16), d &&& byteMask (n - 24)] := by
    rw [hcm]
    simp [Mask, v4InV6]
  rw [hm, land_byteMask _ a ha, land_byteMask _ b hb, land_byteMask _ c hc, land_byteMask _ d hd]
  have z : ∀ x : Nat, x < 256 → x / 2 ^ 8 * 2 ^ 8 = 0 := by
    intro x hx
    rw [byte_div_256 x hx]
    rfl
  rcases (by omega : n ≤ 8 ∨ (8 < n ∧ n ≤ 16) ∨ (16 < n ∧ n ≤ 24) ∨ (24 < n ∧ n ≤ 32)) with h | h | h | h
  · have e1 : 8 - (n - 8) = 8 := by omega
    have e2 : 8 - (n - 16) = 8 := by omega
    have e3 : 8 - (n - 24) = 8 := by omega
    have e : 32 - n = 24 + (8 - n) := by omega
    have v : val4 [a, b, c, d] / 2 ^ 24 = a := by
      simp only [val4]
      omega
    rw [e1, e2, e3, e, div_mul_pow_add, v, z b hb, z c hc, z d hd]
    have hle : a / 2 ^ (8 - n) * 2 ^ (8 - n) ≤ a := Nat.div_mul_le_self _ _
    generalize a / 2 ^ (8 - n) * 2 ^ (8 - n) = a' at hle
    simp only [bytes4, List.cons.injEq, and_true]
    refine ⟨?_, ?_, ?_, ?_⟩ <;> omega
  · have e0 : 8 - n = 0 := by omega
    have e2 : 8 - (n - 16) = 8 := by omega
    have e3 : 8 - (n - 24) = 8 := by omega
    have e : 32 - n = 16 + (8 - (n - 8)) := by omega
    have v : val4 [a, b, c, d] / 2 ^ 16 = a * 256 + b := by
      simp only [val4]
      omega
    rw [e0, e2, e3, e, div_mul_pow_add, v, z c hc, z d hd, div_mul_split _ _ _ (by omega)]
    have hle : b / 2 ^ (8 - (n - 8)) * 2 ^ (8 - (n - 8)) ≤ b := Nat.div_mul_le_self _ _
    generalize b / 2 ^ (8 - (n - 8)) * 2 ^ (8 - (n - 8)) = b' at hle
    simp only [bytes4, List.cons.injEq, and_true, pow_zero, Nat.div_one, mul_one]
    refine ⟨?_, ?_, ?_, ?_⟩ <;> omega
  · have e0 : 8 - n = 0 := by omega
    have e1 : 8 - (n - 8) = 0 := by omega
    have e3 : 8 - (n - 24) = 8 := by omega
    have e : 32 - n = 8 + (8 - (n - 16)) := by omega
    have v : val4 [a, b, c, d] / 2 ^ 8 = (a * 256 + b) * 256 + c := by
      simp only [val4]
      omega
    rw [e0, e1, e3, e, div_mul_pow_add, v, z d hd, div_mul_split _ _ _ (by omega)]
    have hle : c / 2 ^ (8 - (n - 16)) * 2 ^ (8 - (n - 16)) ≤ c := Nat.div_mul_le_self _ _
    generalize c / 2 ^ (8 - (n - 16)) * 2 ^ (8 - (n - 16)) = c' at hle
    simp only [bytes4, List.cons.injEq, and_true, pow_zero, Nat.div_one, mul_one]
    refine ⟨?_, ?_, ?_, ?_⟩ <;> omega
  · have e0 : 8 - n = 0 := by omega
    have e1 : 8 - (n - 8) = 0 := by omega
    have e2 : 8 - (n - 16) = 0 := by omega
    have e : 32 - n = 8 - (n - 24) := by omega
    have v : val4 [a, b, c, d] = ((a * 256 + b) * 256 + c) * 256 + d := rfl
    rw [e0, e1, e2, e, v, div_mul_split _ _ _ (by omega)]
    have hle : d / 2 ^ (8 - (n - 24)) * 2 ^ (8 - (n - 24)) ≤ d := Nat.div_mul_le_self _ _
    generalize d / 2 ^ (8 - (n - 24)) * 2 ^ (8 - (n - 24)) = d' at hle
    simp only [bytes4, List.cons.injEq, and_true, pow_zero, Nat.div_one, mul_one]
    refine ⟨?_, ?_, ?_, ?_⟩ <;> omega
theorem val4_bytes4 (X : Nat) (hX : X < 4294967296) : val4 (bytes4 X) = X := by
  simp only [val4, bytes4]
  omega

theorem bytes4_wrap (X : Nat) : bytes4 (X % 4294967296) = bytes4 X := by
  simp only [bytes4, List.cons.injEq, and_true]
  refine ⟨?_, ?_, ?_, ?_⟩ <;> omega

theorem incIP_bytes4 (X : Nat) (hX : X < 4294967296) : incIP (bytes4 X) = bytes4 (X + 1) := by
  obtain ⟨a', b', c', d', h, ha, hb, hc, hd, hv⟩ :=
    incIP_val4 (X / 16777216 % 256) (X / 65536 % 256) (X / 256 % 256) (X % 256)
      (Nat.mod_lt _ (by decide)) (Nat.mod_lt _ (by decide)) (Nat.mod_lt _ (by decide))
      (Nat.mod_lt _ (by decide))
  have e : val4 [X / 16777216 % 256, X / 65536 % 256, X / 256 % 256, X % 256] = X := val4_bytes4 X hX
  rw [e] at hv
  show incIP [X / 16777216 % 256, X / 65536 % 256, X / 256 % 256, X % 256] = _
  rw [h, ← bytes4_val4 a' b' c' d' ha hb hc hd, hv, bytes4_wrap]

theorem Contains_bytes4 (n : Nat) (hn : n ≤ 32) (a b c d X : Nat)
    (ha : a < 256) (hb : b < 256) (hc : c < 256) (hd : d < 256) (hX : X < 4294967296) :
    IPNet.Contains { IP := Mask (v4InV6 ++ [a, b, c, d]) (CIDRMask n 32), Mask := CIDRMask n 32 } (bytes4 X) = true
      ↔ X / 2 ^ (32 - n) = val4 [a, b, c, d] / 2 ^ (32 - n) := by
  have h := Contains_v4_iff n hn a b c d (X / 16777216 % 256) (X / 65536 % 256) (X / 256 % 256) (X % 256)
    ha hb hc hd (Nat.mod_lt _ (by decide)) (Nat.mod_lt _ (by decide)) (Nat.mod_lt _ (by decide))
    (Nat.mod_lt _ (by decide))
  have e : val4 [X / 16777216 % 256, X / 65536 % 256, X / 256 % 256, X % 256] = X := val4_bytes4 X hX
  rw [e] at h
  exact h

theorem ipString_bytes4 (v6 : V6) (X : Nat) :
    ipString v6 (bytes4 X) =
      ubtoa (X / 16777216 % 256) ++ '.' :: ubtoa (X / 65536 % 256) ++ '.' :: ubtoa (X / 256 % 256)
        ++ '.' :: ubtoa (X % 256) := by
  simp [ipString, bytes4, To4]

theorem range_map_shift {α : Type} (g : Nat → α) (j : Nat) :
    (List.range (j + 1)).map g = g 0 :: (List.range j).map (fun i => g (i + 1)) := by
  rw [List.range_succ_eq_map, List.map_cons, List.map_map]
  rfl

/-- The loop of `expandCIDR` on an IPv4 block with a prefix length of at least
one, started `k` addresses into the block with `j` addresses to go. -/
theorem expandLoop_block (v6 : V6) (n : Nat) (h1 : 1 ≤ n) (hn : n ≤ 32) (a b c d : Nat)
    (ha : a < 256) (hb : b < 256) (hc : c < 256) (hd : d < 256) :
    ∀ (j k fuel : Nat) (acc : List (List Char)), k + j = 2 ^ (32 - n) → j < fuel →
      expandLoop v6 { IP := Mask (v4InV6 ++ [a, b, c, d]) (CIDRMask n 32), Mask := CIDRMask n 32 } fuel
          (bytes4 (val4 [a, b, c, d] / 2 ^ (32 - n) * 2 ^ (32 - n) + k)) acc =
        some (acc ++ (List.range j).map
          (fun i => ipString v6 (bytes4 (val4 [a, b, c, d] / 2 ^ (32 - n) * 2 ^ (32 - n) + k + i)))) := by
  have hV := val4_lt a b c d ha hb hc hd
  have hT : 0 < 2 ^ (32 - n) := Nat.pow_pos (by decide)
  have hpow : 2 ^ n * 2 ^ (32 - n) = 4294967296 := by
    rw [← pow_add, show n + (32 - n) = 32 by omega]
    rfl
  have hn2 : 2 ≤ 2 ^ n := by
    calc 2 = 2 ^ 1 := rfl
      _ ≤ 2 ^ n := Nat.pow_le_pow_right (by decide) h1
  generalize hTe : 2 ^ (32 - n) = T at *
  generalize hQe : val4 [a, b, c, d] / T = Q at *
  have hQ : Q < 2 ^ n := by
    rw [← hQe]
    apply Nat.div_lt_of_lt_mul
    rw [Nat.mul_comm, hpow]
    exact hV
  have hmul : (Q + 1) * T ≤ 2 ^ n * T := Nat.mul_le_mul_right T hQ
  have hNT : Q * T + T ≤ 4294967296 := by
    rw [← hpow]
    calc Q * T + T = (Q + 1) * T := by ring
      _ ≤ 2 ^ n * T := hmul
  intro j
  induction j with
  | zero =>
    intro k fuel acc hk hf
    obtain ⟨f, rfl⟩ : ∃ f, fuel = f + 1 := ⟨fuel - 1, by omega⟩
    have hkT : k = T := by omega
    subst hkT
    have hnot : IPNet.Contains { IP := Mask (v4InV6 ++ [a, b, c, d]) (CIDRMask n 32), Mask := CIDRMask n 32 }
        (bytes4 (Q * k + k)) = false := by
      rw [← bytes4_wrap]
      cases hc' : IPNet.Contains { IP := Mask (v4InV6 ++ [a, b, c, d]) (CIDRMask n 32), Mask := CIDRMask n 32 }
          (bytes4 ((Q * k + k) % 4294967296)) with
      | false => rfl
      | true =>
        exfalso
        rw [Contains_bytes4 n hn a b c d _ ha hb hc hd (Nat.mod_lt _ (by decide)), hTe, hQe] at hc'
        rcases Nat.lt_or_ge (Q * k + k) 4294967296 with hlt | hge
        · rw [Nat.mod_eq_of_lt hlt] at hc'
          have : (Q * k + k) / k = Q + 1 := by
            rw [show Q * k + k = (Q + 1) * k by ring]
            exact Nat.mul_div_cancel _ hT
          omega
        · have heq : Q * k + k = 4294967296 := by omega
          rw [heq] at hc'
          simp only [Nat.mod_self, Nat.zero_div] at hc'
          have : (Q + 1) * k = 2 ^ n * k := by
            rw [hpow, ← heq]
            ring
          have := Nat.eq_of_mul_eq_mul_right hT this
          omega
    simp [expandLoop, hnot]
  | succ j ih =>
    intro k fuel acc hk hf
    obtain ⟨f, rfl⟩ : ∃ f, fuel = f + 1 := ⟨fuel - 1, by omega⟩
    have hkT : k < T := by omega
    have hlt : Q * T + k < 4294967296 := by omega
    have hin : IPNet.Contains { IP := Mask (v4InV6 ++ [a, b, c, d]) (CIDRMask n 32), Mask := CIDRMask n 32 }
        (bytes4 (Q * T + k)) = true := by
      rw [Contains_bytes4 n hn a b c d _ ha hb hc hd hlt, hTe, hQe]
      rw [Nat.add_comm, Nat.add_mul_div_right _ _ hT, Nat.div_eq_of_lt hkT]
      simp
    rw [expandLoop, hin]
    simp only [if_true]
    rw [incIP_bytes4 _ hlt, show Q * T + k + 1 = Q * T + (k + 1) by ring,
      ih (k + 1) f _ (by omega) (by omega)]
    have hfun : (fun i => ipString v6 (bytes4 (Q * T + (k + 1) + i))) =
        (fun i => ipString v6 (bytes4 (Q * T + k + (i + 1)))) := by
      funext i
      rw [show Q * T + (k + 1) + i = Q * T + k + (i + 1) by ring]
    rw [range_map_shift, hfun, List.append_assoc]
    rfl
theorem digitVal_lt (c : Char) (d : Nat) (h : digitVal c = some d) : d < 10 := by
  unfold digitVal at h
  split at h
  · cases h
    omega
  · exact Option.noConfusion h

theorem parseIPv4Fields_shape : ∀ (s : List Char) (prev : Option Char) (fields : List Nat) (val digLen : Nat)
    (res : List Nat), fields.length ≤ 3 → (∀ x ∈ fields, x < 256) → val < 256 →
    parseIPv4Fields s prev fields val digLen = some res → res.length = 4 ∧ ∀ x ∈ res, x < 256
  | [], prev, fields, val, digLen, res, hl, hf, hv, h => by
    rw [parseIPv4Fields] at h
    by_cases h3 : fields.length < 3
    · rw [if_pos h3] at h
      exact Option.noConfusion h
    · rw [if_neg h3] at h
      cases h
      refine ⟨by simp; omega, ?_⟩
      intro x hx
      rcases List.mem_append.mp hx with hx | hx
      · exact hf x hx
      · simp only [List.mem_singleton] at hx
        omega
  | c :: cs, prev, fields, val, digLen, res, hl, hf, hv, h => by
    rw [parseIPv4Fields] at h
    cases hd : digitVal c with
    | some d =>
      rw [hd] at h
      simp only at h
      by_cases h1 : digLen = 1 ∧ val = 0
      · rw [if_pos h1] at h
        exact Option.noConfusion h
      · rw [if_neg h1] at h
        by_cases h2 : val * 10 + d > 255
        · rw [if_pos h2] at h
          exact Option.noConfusion h
        · rw [if_neg h2] at h
          exact parseIPv4Fields_shape cs _ fields _ _ res hl hf (by omega) h
    | none =>
      rw [hd] at h
      simp only at h
      by_cases hdot : c = '.'
      · rw [if_pos hdot] at h
        by_cases h1 : prev = none ∨ cs.isEmpty = true ∨ prev = some '.'
        · rw [if_pos h1] at h
          exact Option.noConfusion h
        · rw [if_neg h1] at h
          by_cases h2 : fields.length = 3
          · rw [if_pos h2] at h
            exact Option.noConfusion h
          · rw [if_neg h2] at h
            refine parseIPv4Fields_shape cs _ (fields ++ [val]) 0 0 res (by simp; omega) ?_ (by omega) h
            intro x hx
            rcases List.mem_append.mp hx with hx | hx
            · exact hf x hx
            · simp only [List.mem_singleton] at hx
              omega
      · rw [if_neg hdot] at h
        exact Option.noConfusion h

theorem maskBytes_length : ∀ l n : Nat, (maskBytes l n).length = l
  | 0, _ => rfl
  | l + 1, n => by
    rw [maskBytes_succ, List.length_cons, maskBytes_length l]

theorem ParseAddr_shape (v6 : V6) (t : List Char) (x : IP) (bl : Nat) (h : ParseAddr v6 t = some (x, bl)) :
    (bl = 32 ∧ ∃ a b c d : Nat, a < 256 ∧ b < 256 ∧ c < 256 ∧ d < 256 ∧ x = v4InV6 ++ [a, b, c, d])
      ∨ bl = 128 := by
  unfold ParseAddr at h
  split at h
  · cases hf : parseIPv4Fields t none [] 0 0 with
    | none =>
      rw [hf] at h
      exact Option.noConfusion h
    | some fields =>
      rw [hf] at h
      simp only [Option.some.injEq, Prod.mk.injEq] at h
      obtain ⟨hl, hb⟩ := parseIPv4Fields_shape t none [] 0 0 fields (by simp) (by simp) (by decide) hf
      left
      refine ⟨h.2.symm, ?_⟩
      match fields, hl, hb with
      | [a, b, c, d], _, hb =>
        exact ⟨a, b, c, d, hb a (by simp), hb b (by simp), hb c (by simp), hb d (by simp), h.1.symm⟩
  · cases hf : v6.parse t with
    | none =>
      rw [hf] at h
      exact Option.noConfusion h
    | some b =>
      rw [hf] at h
      simp only [Option.some.injEq, Prod.mk.injEq] at h
      exact Or.inr h.2.symm
  · exact Option.noConfusion h

theorem ParseCIDR_v4_shape (v6 : V6) (s : List Char) (ip : IP) (ipNet : IPNet)
    (hp : ParseCIDR v6 s = some (ip, ipNet)) (h4 : ipNet.Mask.length = 4) :
    ∃ a b c d n : Nat, a < 256 ∧ b < 256 ∧ c < 256 ∧ d < 256 ∧ n ≤ 32
      ∧ ip = v4InV6 ++ [a, b, c, d]
      ∧ ipNet = { IP := Mask (v4InV6 ++ [a, b, c, d]) (CIDRMask n 32), Mask := CIDRMask n 32 }
      ∧ Contains s slash = true := by
  unfold ParseCIDR at hp
  by_cases hall : (s.all (fun c => decide (c ≠ '/'))) = true
  · rw [if_pos hall] at hp
    exact Option.noConfusion hp
  · rw [if_neg hall] at hp
    have hcs : Contains s slash = true := by
      clear hp
      induction s with
      | nil => simp at hall
      | cons c cs ih =>
        by_cases hc : c = '/'
        · subst hc
          simp [Contains, slash, List.isPrefixOf]
        · have : ¬ (cs.all (fun c => decide (c ≠ '/'))) = true := by
            intro h
            apply hall
            simp only [List.all_cons, h, Bool.and_true]
            simpa using hc
          simp [Contains, ih this]
    simp only at hp
    cases ha : ParseAddr v6 (List.takeWhile (fun c => decide (c ≠ '/')) s) with
    | none =>
      rw [ha] at hp
      exact Option.noConfusion hp
    | some r =>
      obtain ⟨addr16, bitLen⟩ := r
      rw [ha] at hp
      simp only at hp
      rcases hd : dtoi (List.drop 1 (List.dropWhile (fun c => decide (c ≠ '/')) s)) 0 0 with ⟨n, i, ok⟩
      rw [hd] at hp
      simp only at hp
      split at hp
      · exact Option.noConfusion hp
      · rename_i hcond
        simp only [Option.some.injEq, Prod.mk.injEq] at hp
        have hnb : n ≤ bitLen := by
          by_contra hgt
          exact hcond (Or.inr (Or.inr (by omega)))
        obtain ⟨hip, hnet⟩ := hp
        rcases ParseAddr_shape v6 _ addr16 bitLen ha with ⟨hb, a, b, c, d, hba, hbb, hbc, hbd, hx⟩ | hb
        · subst hb
          subst hx
          exact ⟨a, b, c, d, n, hba, hbb, hbc, hbd, hnb, hip.symm, hnet.symm, hcs⟩
        · exfalso
          subst hb
          rw [← hnet] at h4
          have hng : ¬ n > 128 := by omega
          simp [CIDRMask, hng, maskBytes_length] at h4
/-- What `parseTargets` does on every token `net.ParseCIDR` accepts as an IPv4
block, with address `a.b.c.d` and prefix length `n`: for `n` of at least one,
enough fuel gives the `2^(32-n)` addresses of the block in ascending order,
from the network address (the host bits of `a.b.c.d` cleared) to the last
address of the block, each in dotted decimal; for `n = 0` it never returns. -/
theorem parseTargets_ipv4_cidr (v6 : V6) (s : List Char) (ip : IP) (ipNet : IPNet)
    (hp : ParseCIDR v6 s = some (ip, ipNet)) (h4 : ipNet.Mask.length = 4) :
    ∃ a b c d n : Nat, a < 256 ∧ b < 256 ∧ c < 256 ∧ d < 256 ∧ n ≤ 32
      ∧ ip = v4InV6 ++ [a, b, c, d] ∧ ipNet.Mask = CIDRMask n 32
      ∧ (1 ≤ n → ∀ fuel : Nat, 2 ^ (32 - n) < fuel →
          parseTargets v6 fuel s = some ((List.range (2 ^ (32 - n))).map
            (fun k => ipString v6 (bytes4 (val4 [a, b, c, d] / 2 ^ (32 - n) * 2 ^ (32 - n) + k)))))
      ∧ (n = 0 → ∀ fuel : Nat, parseTargets v6 fuel s = none) := by
  obtain ⟨a, b, c, d, n, ha, hb, hc, hd, hn, hip, hnet, hcs⟩ := ParseCIDR_v4_shape v6 s ip ipNet hp h4
  refine ⟨a, b, c, d, n, ha, hb, hc, hd, hn, hip, by rw [hnet], ?_, ?_⟩
  · intro h1 fuel hf
    have hl := expandLoop_block v6 n h1 hn a b c d ha hb hc hd (2 ^ (32 - n)) 0 fuel []
      (by simp) hf
    simp only [Nat.add_zero, List.nil_append] at hl
    have hm : Mask ip ipNet.Mask = bytes4 (val4 [a, b, c, d] / 2 ^ (32 - n) * 2 ^ (32 - n)) := by
      rw [hnet, hip]
      exact Mask_v4 n hn a b c d ha hb hc hd
    have hpos : 0 < 2 ^ (32 - n) := Nat.pow_pos (by decide)
    simp only [parseTargets, hcs, if_true, expandCIDR, hp, hm]
    rw [hnet, hl]
    simp [hpos]
  · intro h0 fuel
    subst h0
    have hm : Mask ip ipNet.Mask = [0, 0, 0, 0] := by
      rw [hnet, hip]
      simp [Mask, CIDRMask, maskBytes, v4InV6]
    have hnet' : ipNet = { IP := [0, 0, 0, 0], Mask := [0, 0, 0, 0] } := by
      rw [hnet]
      simp [Mask, CIDRMask, maskBytes, v4InV6]
    simp only [parseTargets, hcs, if_true, expandCIDR, hp, hm]
    rw [hnet', expandLoop_slash_zero v6 fuel [0, 0, 0, 0] [] rfl]

theorem parseTargets_ipv4_cidr_example :
    parseTargets noV6 5 "192.168.1.9/30".toList =
      some ["192.168.1.8".toList, "192.168.1.9".toList, "192.168.1.10".toList, "192.168.1.11".toList] := by
  decide

end QuickScan
